import Mathlib

/-! Verification development for the OSM region downloader: a shallow
embedding of its streaming tag aggregator (guimon3.py,
`OSMParserThread._parse` and `OSMExplorerApp._format_object`) and of its
batch contributor analyzer (proc.py, `analyze_osm_xml`), together with
proofs of the documented properties of both components.  XML elements are
modelled as records holding exactly the attributes and children the code
consults; Python dicts, Counters and defaultdicts are modelled as
insertion-ordered association lists. -/

/-- A direct child element of an OSM primitive element: its element name
and its `k` / `v` attributes when present. -/
structure Child where
  tag : String
  k : Option String
  v : Option String
deriving DecidableEq

/-- A top-level element of the document: its element name, the attributes
the two programs consult, and its direct children. -/
structure Elem where
  tag : String
  id : Option String
  timestamp : Option String
  user : Option String
  children : List Child
deriving DecidableEq

/-- Association-list lookup, the Python `dict.get(key)` presence check:
first binding wins (bindings are kept with unique keys throughout). -/
def getO {α β : Type} [DecidableEq α] : List (α × β) → α → Option β
  | [], _ => none
  | p :: rest, a => if p.1 = a then some p.2 else getO rest a

/-- Update-or-append on an association list: the Python dict / Counter /
defaultdict write `m[a] = f(m.get(a, d))` — an existing key is updated in
place, a new key is appended at the end (insertion order). -/
def modA {α β : Type} [DecidableEq α] (d : β) (f : β → β) : List (α × β) → α → List (α × β)
  | [], a => [(a, f d)]
  | p :: rest, a => if p.1 = a then (p.1, f p.2) :: rest else p :: modA d f rest a

/-- Sum of the counts stored in a counter association list. -/
def sumC {α : Type} (m : List (α × Nat)) : Nat := (m.map Prod.snd).sum

/-- The keys of an association list are pairwise distinct (the dict
representation invariant). -/
def NodK {α β : Type} (m : List (α × β)) : Prop := (m.map Prod.fst).Nodup

/-- Whether a top-level element is an OSM primitive, the check
`elem.tag in ('node', 'way', 'relation')` of guimon3.py line 37 and
proc.py line 19. -/
def isNWR (e : Elem) : Prop :=
  e.tag = "node" ∨ e.tag = "way" ∨ e.tag = "relation"

instance (e : Elem) : Decidable (isNWR e) := by
  unfold isNWR
  infer_instance

/-- Number of node/way/relation elements in a document prefix. -/
def cntNWR : List Elem → Nat
  | [] => 0
  | e :: rest => (if isNWR e then 1 else 0) + cntNWR rest

/-- The tag-collection loop of guimon3.py lines 39 to 45, threaded through
an accumulator: children named `tag` carrying both a `k` and a `v`
attribute are written into the dict left to right, so a repeated key keeps
its first position but receives the last value. -/
def collectAux : List Child → List (String × String) → List (String × String)
  | [], acc => acc
  | c :: cs, acc =>
    if c.tag = "tag" then
      match c.k, c.v with
      | some k, some v => collectAux cs (modA v (fun _ => v) acc k)
      | _, _ => collectAux cs acc
    else collectAux cs acc

/-- The finished `tags` dict of one element (guimon3.py lines 39 to 45). -/
def collectTags (cs : List Child) : List (String × String) := collectAux cs []

/-- The value of the last child named `tag` that carries key `k` together
with a `v` attribute — the value that last-write-wins collection keeps. -/
def lastVal : List Child → String → Option String
  | [], _ => none
  | c :: cs, k =>
    match lastVal cs k with
    | some v => some v
    | none => if c.tag = "tag" ∧ c.k = some k then c.v else none

/-- The three accumulators of OSMParserThread (guimon3.py lines 16 to 18):
`tag_counts` (a Counter), `values_map` (a defaultdict of Counters) and
`objects_map` (a defaultdict of lists of (type, id, name) triples). -/
structure AggState where
  tag_counts : List (String × Nat)
  values_map : List (String × List (String × Nat))
  objects_map : List ((String × String) × List (String × String × String))
deriving DecidableEq

/-- The accumulators as initialised in __init__ (guimon3.py lines 16 to 18). -/
def emptyAgg : AggState := ⟨[], [], []⟩

/-- One iteration of `for k, v in tags.items()` (guimon3.py lines 50 to 54)
for the object triple `o`. -/
def pairStep (o : String × String × String) (s : AggState) (p : String × String) : AggState :=
  { tag_counts := modA 0 (fun n => n + 1) s.tag_counts p.1
    values_map := modA [] (fun inner => modA 0 (fun n => n + 1) inner p.2) s.values_map p.1
    objects_map := modA [] (fun l => l ++ [o]) s.objects_map p }

/-- The whole `for k, v in tags.items()` loop (guimon3.py lines 50 to 54). -/
def applyTags (s : AggState) (o : String × String × String) (T : List (String × String)) :
    AggState :=
  T.foldl (pairStep o) s

/-- The `entry_name` recorded for an element whose collected mapping is
`T` (guimon3.py lines 49 and 53): the value of the `name` tag when the
key is present, the sentinel otherwise. -/
def dispName (T : List (String × String)) : String :=
  (getO T "name").getD "unnamed key-value"

/-- Processing of one completed node/way/relation element
(guimon3.py lines 39 to 54): collect the tags dict, and if it is
non-empty update all three accumulators for every pair in it, using the
object triple (elem.tag, elem.attrib.get('id') or '', entry_name). -/
def processElem (s : AggState) (e : Elem) : AggState :=
  let T := collectTags e.children
  if T = [] then s
  else applyTags s (e.tag, e.id.getD "", dispName T) T

/-- The main iterparse loop (guimon3.py lines 36 to 60), with the
wall-clock throttle `time.time() - last_report > 0.5` abstracted as an
arbitrary predicate `orc` of the running element count: every behaviour
of the clock is one choice of `orc`.  The result carries the final
accumulator state, the final value of `elements_processed`, and the list
of counts handed to the progress callback inside the loop. -/
def parseLoop (orc : Nat → Bool) : List Elem → Nat → AggState → AggState × Nat × List Nat
  | [], n, s => (s, n, [])
  | e :: rest, n, s =>
    if isNWR e then
      let out := parseLoop orc rest (n + 1) (processElem s e)
      (out.1, out.2.1, (if orc (n + 1) then [n + 1] else []) ++ out.2.2)
    else parseLoop orc rest n s

/-- A full `_parse` run (guimon3.py lines 30 to 63): the loop over the
document followed by the unconditional final progress report of line 63.
Returns the finished state and the full sequence of progress counts. -/
def parseRun (doc : List Elem) (orc : Nat → Bool) : AggState × List Nat :=
  let out := parseLoop orc doc 0 emptyAgg
  (out.1, out.2.2 ++ [out.2.1])

/-- Occurrences of key `k` among the pairs of a collected mapping. -/
def cntK : List (String × String) → String → Nat
  | [], _ => 0
  | q :: T, k => (if q.1 = k then 1 else 0) + cntK T k

/-- Occurrences of the exact pair `p` among the pairs of a collected
mapping. -/
def cntP : List (String × String) → String × String → Nat
  | [], _ => 0
  | q :: T, p => (if q = p then 1 else 0) + cntP T p

/-- Python str.capitalize as used on 'node' / 'way' / 'relation': first
character mapped to upper case, the remaining characters to lower case. -/
def pyCapitalize (s : String) : String :=
  match s.data with
  | [] => ""
  | c :: cs => String.mk (Char.toUpper c :: cs.map Char.toLower)

/-- OSMExplorerApp._format_object (guimon3.py lines 224 to 228): the
citation template, with `safe_name` falling back to the sentinel when the
name field is falsy (the empty string). -/
def formatObject (o : String × String × String) : String :=
  let templateType := pyCapitalize o.1
  let safeName := if o.2.2 = "" then "unnamed key-value" else o.2.2
  "* \x7b\x7b" ++ templateType ++ "|" ++ o.2.1 ++ "|" ++ safeName ++ "\x7d\x7d"

/-- The accumulators of analyze_osm_xml (proc.py lines 12 to 15):
the global timestamp list, the contributor edit Counter, the tag key
Counter, and the per-user timestamp lists. -/
structure AnaState where
  timestamps : List String
  contributors : List (String × Nat)
  tags_counter : List (String × Nat)
  contrib_timestamps : List (String × List String)
deriving DecidableEq

/-- The analyzer accumulators as initialised (proc.py lines 12 to 15). -/
def initAna : AnaState := ⟨[], [], [], []⟩

/-- Python truthiness of an optional string attribute value: present and
non-empty (the `if ts and user:` and `if k:` tests of proc.py). -/
def truthyS : Option String → Bool
  | none => false
  | some s => !(s == "")

/-- Replacement of every occurrence of the character `Z` by `+00:00`,
the effect of `ts.replace("Z", "+00:00")` for the one-character pattern. -/
def replaceZ : List Char → List Char
  | [] => []
  | c :: cs =>
    if c = 'Z' then '+' :: '0' :: '0' :: ':' :: '0' :: '0' :: replaceZ cs
    else c :: replaceZ cs

/-- The datetime `datetime.fromisoformat(ts.replace("Z", "+00:00"))` of
proc.py line 27, represented by its normalised ISO string. -/
def fromIso (s : String) : String := String.mk (replaceZ s.data)

/-- The `for tag in elem.findall("tag")` loop of proc.py lines 33 to 36:
every child named `tag` whose `k` attribute is truthy bumps the tag key
Counter, once per occurrence. -/
def countTagsAna : List Child → List (String × Nat) → List (String × Nat)
  | [], tc => tc
  | c :: cs, tc =>
    if c.tag = "tag" then
      match c.k with
      | some k =>
          if k = "" then countTagsAna cs tc
          else countTagsAna cs (modA 0 (fun n => n + 1) tc k)
      | none => countTagsAna cs tc
    else countTagsAna cs tc

/-- Processing of one top-level element by analyze_osm_xml (proc.py lines
18 to 36): skip non-primitives; when both the timestamp and the user
attribute are truthy, append the parsed timestamp to the global list and
to the user's list and bump the user's edit count; in every case count
the tag children. -/
def anaElem (st : AnaState) (e : Elem) : AnaState :=
  if isNWR e then
    let st1 :=
      if truthyS e.timestamp && truthyS e.user then
        let dt := fromIso (e.timestamp.getD "")
        let u := e.user.getD ""
        { st with
          timestamps := st.timestamps ++ [dt]
          contributors := modA 0 (fun n => n + 1) st.contributors u
          contrib_timestamps := modA [] (fun l => l ++ [dt]) st.contrib_timestamps u }
      else st
    { st1 with tags_counter := countTagsAna e.children st1.tags_counter }
  else st

/-- analyze_osm_xml up to its line 39 (proc.py lines 7 to 39): the
traversal accumulates state over all top-level elements, after which
`min(timestamps), max(timestamps)` raises ValueError when the global
timestamp list is empty — embedded as an error result; the summaries it
goes on to print are all derived from the returned state. -/
def analyze (doc : List Elem) : Except String AnaState :=
  let st := doc.foldl anaElem initAna
  if st.timestamps = [] then Except.error "min arg is an empty sequence"
  else Except.ok st

/-- Number of children named `tag` whose `k` attribute is exactly `k`,
counted once per occurrence regardless of the `v` attribute. -/
def countKeyChildren : List Child → String → Nat
  | [], _ => 0
  | c :: cs, k => (if c.tag = "tag" ∧ c.k = some k then 1 else 0) + countKeyChildren cs k

/-- A child named `tag` with both attributes present. -/
def tagChild (k v : String) : Child := ⟨"tag", some k, some v⟩

/-- Sample node: id 1, tags name=Cafe and amenity=cafe. -/
def cafeNode : Elem :=
  ⟨"node", some "1", none, none, [tagChild "name" "Cafe", tagChild "amenity" "cafe"]⟩

/-- Sample node whose name tag literally carries the sentinel string. -/
def sentinelNode : Elem :=
  ⟨"node", some "1", none, none, [tagChild "name" "unnamed key-value"]⟩

/-- Sample node with a duplicated tag key. -/
def dupKeyNode : Elem :=
  ⟨"node", some "7", none, none, [tagChild "amenity" "bar", tagChild "amenity" "cafe"]⟩

/-- Sample node with a present but empty timestamp attribute and a user. -/
def emptyTsNode : Elem :=
  ⟨"node", none, some "", some "alice", [tagChild "amenity" "cafe"]⟩

/-- Sample node with a timestamp but no user attribute. -/
def noUserNode : Elem :=
  ⟨"node", some "2", some "2020-01-01T00:00:00Z", none, [tagChild "amenity" "cafe"]⟩

/-- Sample node with both a timestamp and a user attribute. -/
def aliceNode : Elem :=
  ⟨"node", some "3", some "2020-01-02T03:04:05Z", some "alice", [tagChild "amenity" "cafe"]⟩

/-- Sample node carrying two tag children with the same key `amenity`,
the second lacking its `v` attribute. -/
def dupAnaNode : Elem :=
  ⟨"node", some "8", none, none, [tagChild "amenity" "cafe", ⟨"tag", some "amenity", none⟩]⟩

/-- Sample node all of whose tag children lack `k` or `v`. -/
def invalidTagsNode : Elem :=
  ⟨"node", some "9", none, none, [⟨"tag", none, some "x"⟩, ⟨"tag", some "y", none⟩]⟩


/-- Counter lookup with the Python Counter default of 0. -/
def cntL (m : List (String × Nat)) (k : String) : Nat := (getO m k).getD 0

/-- KeyFrequency lookup: `self.tag_counts[k]`. -/
def tcL (s : AggState) (k : String) : Nat := cntL s.tag_counts k

/-- The value distribution stored for key `k`: `self.values_map[k]`. -/
def vals (s : AggState) (k : String) : List (String × Nat) := (getO s.values_map k).getD []

/-- ValueFrequency lookup: `self.values_map[k][v]`. -/
def vmL (s : AggState) (k v : String) : Nat := cntL (vals s k) v

/-- ObjectIndex lookup: `self.objects_map[(k, v)]` with defaultdict
default []. -/
def obL (s : AggState) (p : String × String) : List (String × String × String) :=
  (getO s.objects_map p).getD []

/-- The object triple recorded for an element (guimon3.py lines 47 to 49
and 53): (elem.tag, elem.attrib.get('id') or '', entry_name). -/
def objOf (e : Elem) : String × String × String :=
  (e.tag, e.id.getD "", dispName (collectTags e.children))

/-- Per-user timestamp list lookup: `contrib_timestamps[user]`. -/
def tsL (m : List (String × List String)) (u : String) : List String := (getO m u).getD []

/-- The data-model invariant relating ValueFrequency to KeyFrequency:
for every key the counts of its value distribution sum to its key count. -/
def AggInv (s : AggState) : Prop := ∀ k, sumC (vals s k) = tcL s k

theorem getO_modA {α β : Type} [DecidableEq α] (d : β) (f : β → β)
    (m : List (α × β)) (a a' : α) :
    getO (modA d f m a) a' =
      if a' = a then some (f ((getO m a).getD d)) else getO m a' := by
  induction m with
  | nil =>
    rcases eq_or_ne a' a with h | h
    · subst h; simp [modA, getO]
    · simp [modA, getO, h, h.symm]
  | cons p rest ih =>
    rcases eq_or_ne p.1 a with hp | hp
    · subst hp
      rcases eq_or_ne a' p.1 with h | h
      · subst h; simp [modA, getO]
      · simp [modA, getO, h, h.symm]
    · rcases eq_or_ne p.1 a' with h | h
      · have hne : a' ≠ a := fun hh => hp (h.trans hh)
        simp [modA, getO, hp, h, hne]
      · simp [modA, getO, hp, h, ih]

theorem sumC_modA_succ {α : Type} [DecidableEq α] (m : List (α × Nat)) (a : α) :
    sumC (modA 0 (fun n => n + 1) m a) = sumC m + 1 := by
  induction m with
  | nil => simp [modA, sumC]
  | cons p rest ih =>
    by_cases hp : p.1 = a
    · simp [modA, hp, sumC]
      omega
    · simp [modA, hp, sumC] at ih ⊢
      omega

theorem mem_keys_modA {α β : Type} [DecidableEq α] (d : β) (f : β → β)
    (m : List (α × β)) (a a' : α) :
    a' ∈ (modA d f m a).map Prod.fst ↔ a' ∈ m.map Prod.fst ∨ a' = a := by
  induction m with
  | nil => simp [modA]
  | cons p rest ih =>
    rcases eq_or_ne p.1 a with hp | hp
    · subst hp
      simp only [modA, if_true, eq_self_iff_true, ite_true, List.map_cons, List.mem_cons]
      tauto
    · simp only [modA, if_neg hp, List.map_cons, List.mem_cons, ih]
      tauto

theorem nodK_modA {α β : Type} [DecidableEq α] (d : β) (f : β → β)
    (m : List (α × β)) (a : α) (h : NodK m) : NodK (modA d f m a) := by
  induction m with
  | nil => simp [modA, NodK]
  | cons p rest ih =>
    unfold NodK at h ⊢
    simp only [List.map_cons, List.nodup_cons] at h
    rcases eq_or_ne p.1 a with hp | hp
    · subst hp
      simp only [modA, if_true, eq_self_iff_true, ite_true, List.map_cons, List.nodup_cons]
      exact ⟨h.1, h.2⟩
    · simp only [modA, if_neg hp, List.map_cons, List.nodup_cons]
      refine ⟨?_, ih h.2⟩
      intro hmem
      rcases (mem_keys_modA d f rest a p.1).1 hmem with hm | he
      · exact h.1 hm
      · exact hp he

theorem getO_eq_none_of_not_mem {α β : Type} [DecidableEq α]
    (m : List (α × β)) (a : α) (h : a ∉ m.map Prod.fst) : getO m a = none := by
  induction m with
  | nil => simp [getO]
  | cons p rest ih =>
    simp only [List.map_cons, List.mem_cons] at h
    push_neg at h
    have hp : p.1 ≠ a := fun hh => h.1 hh.symm
    simp [getO, hp, ih h.2]

theorem mem_of_getO_eq_some {α β : Type} [DecidableEq α]
    (m : List (α × β)) (a : α) (b : β) (h : getO m a = some b) : (a, b) ∈ m := by
  induction m with
  | nil => simp [getO] at h
  | cons p rest ih =>
    rcases eq_or_ne p.1 a with hp | hp
    · simp only [getO, if_pos hp] at h
      have hpab : p = (a, b) := by
        cases p with
        | mk x y => simp_all
      rw [hpab]
      exact List.mem_cons_self _ _
    · simp only [getO, if_neg hp] at h
      exact List.mem_cons_of_mem _ (ih h)

theorem getO_eq_some_of_mem {α β : Type} [DecidableEq α]
    (m : List (α × β)) (a : α) (b : β) (hn : NodK m) (h : (a, b) ∈ m) :
    getO m a = some b := by
  induction m with
  | nil => simp at h
  | cons p rest ih =>
    unfold NodK at hn
    simp only [List.map_cons, List.nodup_cons] at hn
    rcases List.mem_cons.1 h with he | hm
    · rw [he.symm] at hn ⊢
      simp [getO]
    · have ha : a ∈ rest.map Prod.fst :=
        List.mem_map.2 ⟨(a, b), hm, rfl⟩
      have hp : p.1 ≠ a := fun hh => hn.1 (hh ▸ ha)
      simp [getO, hp, ih hn.2 hm]

theorem tcL_pairStep (o : String × String × String) (s : AggState)
    (p : String × String) (k : String) :
    tcL (pairStep o s p) k = tcL s k + (if k = p.1 then 1 else 0) := by
  unfold tcL cntL pairStep
  rw [getO_modA]
  rcases eq_or_ne k p.1 with h | h
  · simp [h]
  · simp [h]

theorem vals_pairStep (o : String × String × String) (s : AggState)
    (p : String × String) (k : String) :
    vals (pairStep o s p) k =
      if k = p.1 then modA 0 (fun n => n + 1) (vals s p.1) p.2 else vals s k := by
  unfold vals pairStep
  rw [getO_modA]
  rcases eq_or_ne k p.1 with h | h
  · simp [h]
  · simp [h]

theorem vmL_pairStep (o : String × String × String) (s : AggState)
    (p : String × String) (k v : String) :
    vmL (pairStep o s p) k v = vmL s k v + (if (k, v) = p then 1 else 0) := by
  obtain ⟨p1, p2⟩ := p
  unfold vmL cntL
  rw [vals_pairStep]
  rcases eq_or_ne k p1 with h | h
  · subst h
    rw [if_pos rfl, getO_modA]
    rcases eq_or_ne v p2 with hv | hv
    · subst hv
      simp [vals, Prod.mk.injEq]
    · simp [vals, Prod.mk.injEq, hv]
  · have hne : (k, v) ≠ (p1, p2) := by simp [Prod.mk.injEq, h]
    simp [h, hne]

theorem obL_pairStep (o : String × String × String) (s : AggState)
    (p q : String × String) :
    obL (pairStep o s p) q = obL s q ++ (if q = p then [o] else []) := by
  unfold obL pairStep
  rw [getO_modA]
  rcases eq_or_ne q p with h | h
  · simp [h]
  · simp [h]

theorem aggInv_pairStep (o : String × String × String) (s : AggState)
    (p : String × String) (h : AggInv s) : AggInv (pairStep o s p) := by
  intro k
  rw [vals_pairStep, tcL_pairStep]
  rcases eq_or_ne k p.1 with hk | hk
  · rw [if_pos hk, if_pos hk, sumC_modA_succ, h p.1, hk]
  · rw [if_neg hk, if_neg hk, h k]
    omega

theorem aggInv_applyTags (o : String × String × String) (T : List (String × String)) :
    ∀ s : AggState, AggInv s → AggInv (applyTags s o T) := by
  induction T with
  | nil => intro s h; exact h
  | cons p T ih => intro s h; exact ih _ (aggInv_pairStep o s p h)

theorem tcL_applyTags (o : String × String × String) (T : List (String × String)) :
    ∀ (s : AggState) (k : String), tcL (applyTags s o T) k = tcL s k + cntK T k := by
  induction T with
  | nil => intro s k; simp [applyTags, cntK]
  | cons p T ih =>
    intro s k
    have hstep : applyTags s o (p :: T) = applyTags (pairStep o s p) o T := rfl
    have hcnt : cntK (p :: T) k = (if p.1 = k then 1 else 0) + cntK T k := rfl
    rw [hstep, ih, tcL_pairStep, hcnt]
    rcases eq_or_ne k p.1 with h | h
    · rw [if_pos h, if_pos h.symm]
      omega
    · rw [if_neg h, if_neg (fun hh : p.1 = k => h hh.symm)]
      omega

theorem vmL_applyTags (o : String × String × String) (T : List (String × String)) :
    ∀ (s : AggState) (k v : String),
      vmL (applyTags s o T) k v = vmL s k v + cntP T (k, v) := by
  induction T with
  | nil => intro s k v; simp [applyTags, cntP]
  | cons p T ih =>
    intro s k v
    have hstep : applyTags s o (p :: T) = applyTags (pairStep o s p) o T := rfl
    have hcnt : cntP (p :: T) (k, v) = (if p = (k, v) then 1 else 0) + cntP T (k, v) := rfl
    rw [hstep, ih, vmL_pairStep, hcnt]
    rcases eq_or_ne (k, v) p with h | h
    · rw [if_pos h, if_pos h.symm]
      omega
    · rw [if_neg h, if_neg (fun hh : p = (k, v) => h hh.symm)]
      omega

theorem obL_applyTags (o : String × String × String) (T : List (String × String)) :
    ∀ (s : AggState) (q : String × String),
      obL (applyTags s o T) q = obL s q ++ List.replicate (cntP T q) o := by
  induction T with
  | nil => intro s q; simp [applyTags, cntP]
  | cons p T ih =>
    intro s q
    have hstep : applyTags s o (p :: T) = applyTags (pairStep o s p) o T := rfl
    have hcnt : cntP (p :: T) q = (if p = q then 1 else 0) + cntP T q := rfl
    rw [hstep, ih, obL_pairStep, hcnt, List.append_assoc]
    congr 1
    rcases eq_or_ne q p with h | h
    · rw [if_pos h, if_pos h.symm, List.replicate_add]
      simp
    · rw [if_neg h, if_neg (fun hh : p = q => h hh.symm)]
      simp

theorem cntK_nodK (T : List (String × String)) (k : String) (h : NodK T) :
    cntK T k = if (getO T k).isSome then 1 else 0 := by
  induction T with
  | nil => simp [cntK, getO]
  | cons q T ih =>
    unfold NodK at h
    simp only [List.map_cons, List.nodup_cons] at h
    have hcnt : cntK (q :: T) k = (if q.1 = k then 1 else 0) + cntK T k := rfl
    rw [hcnt, ih h.2]
    rcases eq_or_ne q.1 k with hq | hq
    · have hnone : getO T k = none := by
        apply getO_eq_none_of_not_mem
        rw [hq.symm]
        exact h.1
      simp [getO, hq, hnone]
    · simp [getO, hq]

theorem cntP_nodK (T : List (String × String)) (p : String × String) (h : NodK T) :
    cntP T p = if getO T p.1 = some p.2 then 1 else 0 := by
  induction T with
  | nil => simp [cntP, getO]
  | cons q T ih =>
    unfold NodK at h
    simp only [List.map_cons, List.nodup_cons] at h
    have hcnt : cntP (q :: T) p = (if q = p then 1 else 0) + cntP T p := rfl
    rw [hcnt, ih h.2]
    rcases eq_or_ne q.1 p.1 with hq | hq
    · have hnone : getO T p.1 = none := by
        apply getO_eq_none_of_not_mem
        rw [hq.symm]
        exact h.1
      rcases eq_or_ne q p with he | he
      · subst he
        simp [getO, hnone]
      · have hv : ¬ some q.2 = some p.2 := by
          intro hh
          apply he
          have h2 : q.2 = p.2 := by injection hh
          cases q
          cases p
          simp_all
        simp [getO, hq, hnone, he, hv]
    · have hqp : q ≠ p := by
        intro hh
        exact hq (hh ▸ rfl)
      simp [getO, hq, hqp]

theorem getO_collectAux (cs : List Child) :
    ∀ (acc : List (String × String)) (k : String),
      getO (collectAux cs acc) k =
        match lastVal cs k with
        | some v => some v
        | none => getO acc k := by
  induction cs with
  | nil =>
    intro acc k
    simp [collectAux, lastVal]
  | cons c cs ih =>
    intro acc k
    by_cases ht : c.tag = "tag"
    · cases hk : c.k with
      | none =>
        have hstep : collectAux (c :: cs) acc = collectAux cs acc := by
          simp [collectAux, ht, hk]
        rw [hstep, ih]
        cases hl : lastVal cs k with
        | some v => simp [lastVal, hl]
        | none => simp [lastVal, hl, ht, hk]
      | some k0 =>
        cases hv : c.v with
        | none =>
          have hstep : collectAux (c :: cs) acc = collectAux cs acc := by
            simp [collectAux, ht, hk, hv]
          rw [hstep, ih]
          cases hl : lastVal cs k with
          | some v => simp [lastVal, hl]
          | none =>
            rcases eq_or_ne k0 k with hkk | hkk
            · simp [lastVal, hl, ht, hk, hv, hkk]
            · simp [lastVal, hl, ht, hk, hv, hkk]
        | some v0 =>
          have hstep : collectAux (c :: cs) acc = collectAux cs (modA v0 (fun _ => v0) acc k0) := by
            simp [collectAux, ht, hk, hv]
          rw [hstep, ih]
          cases hl : lastVal cs k with
          | some v => simp [lastVal, hl]
          | none =>
            rcases eq_or_ne k k0 with hkk | hkk
            · subst hkk
              simp [lastVal, hl, ht, hk, hv, getO_modA]
            · have h2 : ¬ k0 = k := fun hh => hkk hh.symm
              simp [lastVal, hl, ht, hk, hv, getO_modA, hkk, h2]
    · have hstep : collectAux (c :: cs) acc = collectAux cs acc := by
        simp [collectAux, ht]
      rw [hstep, ih]
      cases hl : lastVal cs k with
      | some v => simp [lastVal, hl]
      | none => simp [lastVal, hl, ht]

theorem getO_collectTags (cs : List Child) (k : String) :
    getO (collectTags cs) k = lastVal cs k := by
  unfold collectTags
  rw [getO_collectAux]
  cases hl : lastVal cs k with
  | some v => simp
  | none => simp [getO]

theorem nodK_collectAux (cs : List Child) :
    ∀ acc : List (String × String), NodK acc → NodK (collectAux cs acc) := by
  induction cs with
  | nil => intro acc h; exact h
  | cons c cs ih =>
    intro acc h
    by_cases ht : c.tag = "tag"
    · cases hk : c.k with
      | none =>
        have hstep : collectAux (c :: cs) acc = collectAux cs acc := by
          simp [collectAux, ht, hk]
        rw [hstep]
        exact ih acc h
      | some k0 =>
        cases hv : c.v with
        | none =>
          have hstep : collectAux (c :: cs) acc = collectAux cs acc := by
            simp [collectAux, ht, hk, hv]
          rw [hstep]
          exact ih acc h
        | some v0 =>
          have hstep : collectAux (c :: cs) acc = collectAux cs (modA v0 (fun _ => v0) acc k0) := by
            simp [collectAux, ht, hk, hv]
          rw [hstep]
          exact ih _ (nodK_modA _ _ acc k0 h)
    · have hstep : collectAux (c :: cs) acc = collectAux cs acc := by
        simp [collectAux, ht]
      rw [hstep]
      exact ih acc h

theorem nodK_collectTags (cs : List Child) : NodK (collectTags cs) := by
  unfold collectTags
  exact nodK_collectAux cs [] (by simp [NodK])

theorem processElem_eq_of_nil (s : AggState) (e : Elem)
    (h : collectTags e.children = []) : processElem s e = s := by
  unfold processElem
  rw [h]
  simp

theorem processElem_eq_of_ne_nil (s : AggState) (e : Elem)
    (h : collectTags e.children ≠ []) :
    processElem s e = applyTags s (objOf e) (collectTags e.children) := by
  unfold processElem objOf
  rw [if_neg h]

theorem tcL_processElem (s : AggState) (e : Elem) (k : String) :
    tcL (processElem s e) k =
      tcL s k + (if (getO (collectTags e.children) k).isSome then 1 else 0) := by
  by_cases hT : collectTags e.children = []
  · rw [processElem_eq_of_nil s e hT, hT]
    simp [getO]
  · rw [processElem_eq_of_ne_nil s e hT, tcL_applyTags,
      cntK_nodK _ _ (nodK_collectTags e.children)]

theorem vmL_processElem (s : AggState) (e : Elem) (k v : String) :
    vmL (processElem s e) k v =
      vmL s k v + (if getO (collectTags e.children) k = some v then 1 else 0) := by
  by_cases hT : collectTags e.children = []
  · rw [processElem_eq_of_nil s e hT, hT]
    simp [getO]
  · rw [processElem_eq_of_ne_nil s e hT, vmL_applyTags,
      cntP_nodK _ _ (nodK_collectTags e.children)]

theorem obL_processElem (s : AggState) (e : Elem) (p : String × String) :
    obL (processElem s e) p =
      obL s p ++ (if getO (collectTags e.children) p.1 = some p.2 then [objOf e] else []) := by
  by_cases hT : collectTags e.children = []
  · rw [processElem_eq_of_nil s e hT, hT]
    simp [getO]
  · rw [processElem_eq_of_ne_nil s e hT, obL_applyTags,
      cntP_nodK _ _ (nodK_collectTags e.children)]
    rcases hg : getO (collectTags e.children) p.1 with _ | v
    · simp
    · rcases eq_or_ne v p.2 with hv | hv
      · simp [hv]
      · simp [hv, fun hh : v = p.2 => hv hh]

theorem aggInv_processElem (s : AggState) (e : Elem) (h : AggInv s) :
    AggInv (processElem s e) := by
  by_cases hT : collectTags e.children = []
  · rw [processElem_eq_of_nil s e hT]
    exact h
  · rw [processElem_eq_of_ne_nil s e hT]
    exact aggInv_applyTags _ _ s h

theorem aggInv_parseLoop (orc : Nat → Bool) :
    ∀ (doc : List Elem) (n : Nat) (s : AggState),
      AggInv s → AggInv (parseLoop orc doc n s).1 := by
  intro doc
  induction doc with
  | nil => intro n s h; exact h
  | cons e rest ih =>
    intro n s h
    by_cases he : isNWR e
    · have hstep : (parseLoop orc (e :: rest) n s).1 =
          (parseLoop orc rest (n + 1) (processElem s e)).1 := by
        simp [parseLoop, he]
      rw [hstep]
      exact ih _ _ (aggInv_processElem s e h)
    · have hstep : parseLoop orc (e :: rest) n s = parseLoop orc rest n s := by
        simp [parseLoop, he]
      rw [hstep]
      exact ih _ _ h

theorem aggInv_empty : AggInv emptyAgg := by
  intro k
  simp [emptyAgg, vals, tcL, cntL, getO, sumC]

theorem parseLoop_count (orc : Nat → Bool) :
    ∀ (doc : List Elem) (n : Nat) (s : AggState),
      (parseLoop orc doc n s).2.1 = n + cntNWR doc := by
  intro doc
  induction doc with
  | nil => intro n s; simp [parseLoop, cntNWR]
  | cons e rest ih =>
    intro n s
    by_cases he : isNWR e
    · have hstep : (parseLoop orc (e :: rest) n s).2.1 =
          (parseLoop orc rest (n + 1) (processElem s e)).2.1 := by
        simp [parseLoop, he]
      rw [hstep, ih]
      simp [cntNWR, he]
      omega
    · have hstep : parseLoop orc (e :: rest) n s = parseLoop orc rest n s := by
        simp [parseLoop, he]
      rw [hstep, ih]
      simp [cntNWR, he]

theorem parseLoop_reports (orc : Nat → Bool) :
    ∀ (doc : List Elem) (n : Nat) (s : AggState),
      (∀ r ∈ (parseLoop orc doc n s).2.2, n < r ∧ r ≤ (parseLoop orc doc n s).2.1) ∧
        (parseLoop orc doc n s).2.2.Pairwise (· ≤ ·) := by
  intro doc
  induction doc with
  | nil => intro n s; simp [parseLoop]
  | cons e rest ih =>
    intro n s
    by_cases he : isNWR e
    · have hstep : parseLoop orc (e :: rest) n s =
          ((parseLoop orc rest (n + 1) (processElem s e)).1,
           (parseLoop orc rest (n + 1) (processElem s e)).2.1,
           (if orc (n + 1) then [n + 1] else []) ++
             (parseLoop orc rest (n + 1) (processElem s e)).2.2) := by
        simp [parseLoop, he]
      obtain ⟨ihb, ihp⟩ := ih (n + 1) (processElem s e)
      have hfin : n + 1 ≤ (parseLoop orc rest (n + 1) (processElem s e)).2.1 := by
        rw [parseLoop_count]
        omega
      rw [hstep]
      constructor
      · intro r hr
        simp only [List.mem_append] at hr
        rcases hr with hr | hr
        · have hrn : r = n + 1 := by
            rcases hb : orc (n + 1) with _ | _
            · rw [hb] at hr; simp at hr
            · rw [hb] at hr; simp at hr; exact hr
          constructor
          · omega
          · rw [hrn]; exact hfin
        · obtain ⟨h1, h2⟩ := ihb r hr
          exact ⟨by omega, h2⟩
      · rw [List.pairwise_append]
        refine ⟨?_, ihp, ?_⟩
        · rcases hb : orc (n + 1) with _ | _ <;> simp
        · intro a ha b hb
          have han : a = n + 1 := by
            rcases ho : orc (n + 1) with _ | _
            · rw [ho] at ha; simp at ha
            · rw [ho] at ha; simp at ha; exact ha
          have := (ihb b hb).1
          omega
    · have hstep : parseLoop orc (e :: rest) n s = parseLoop orc rest n s := by
        simp [parseLoop, he]
      rw [hstep]
      exact ih n s

theorem parseLoop_obL_src (orc : Nat → Bool) :
    ∀ (doc : List Elem) (n : Nat) (s : AggState) (p : String × String),
      obL (parseLoop orc doc n s).1 p ≠ [] →
        obL s p ≠ [] ∨
          ∃ e, e ∈ doc ∧ isNWR e ∧ getO (collectTags e.children) p.1 = some p.2 := by
  intro doc
  induction doc with
  | nil =>
    intro n s p h
    left
    exact h
  | cons e rest ih =>
    intro n s p h
    by_cases he : isNWR e
    · have hstep : (parseLoop orc (e :: rest) n s).1 =
          (parseLoop orc rest (n + 1) (processElem s e)).1 := by
        simp [parseLoop, he]
      rw [hstep] at h
      rcases ih (n + 1) (processElem s e) p h with hne | ⟨e', he', hw, hg⟩
      · rcases hg : getO (collectTags e.children) p.1 with _ | v
        · rw [obL_processElem, hg] at hne
          simp at hne
          left
          exact hne
        · rcases eq_or_ne v p.2 with hv | hv
          · right
            exact ⟨e, List.mem_cons_self _ _, he, by rw [hg, hv]⟩
          · rw [obL_processElem, hg] at hne
            simp [fun hh : v = p.2 => hv hh] at hne
            left
            exact hne
      · right
        exact ⟨e', List.mem_cons_of_mem _ he', hw, hg⟩
    · have hstep : parseLoop orc (e :: rest) n s = parseLoop orc rest n s := by
        simp [parseLoop, he]
      rw [hstep] at h
      rcases ih n s p h with hne | ⟨e', he', hw, hg⟩
      · left; exact hne
      · right; exact ⟨e', List.mem_cons_of_mem _ he', hw, hg⟩

theorem cntL_countTagsAna (k : String) (hk : k ≠ "") :
    ∀ (cs : List Child) (tc : List (String × Nat)),
      cntL (countTagsAna cs tc) k = cntL tc k + countKeyChildren cs k := by
  intro cs
  induction cs with
  | nil => intro tc; simp [countTagsAna, countKeyChildren]
  | cons c cs ih =>
    intro tc
    have hcnt : countKeyChildren (c :: cs) k =
        (if c.tag = "tag" ∧ c.k = some k then 1 else 0) + countKeyChildren cs k := rfl
    by_cases ht : c.tag = "tag"
    · cases hck : c.k with
      | none =>
        have hstep : countTagsAna (c :: cs) tc = countTagsAna cs tc := by
          simp [countTagsAna, ht, hck]
        rw [hstep, ih, hcnt]
        simp [ht, hck]
      | some k0 =>
        by_cases hk0 : k0 = ""
        · have hstep : countTagsAna (c :: cs) tc = countTagsAna cs tc := by
            simp [countTagsAna, ht, hck, hk0]
          rw [hstep, ih, hcnt]
          have : ¬ (c.tag = "tag" ∧ c.k = some k) := by
            intro hh
            rw [hck] at hh
            have : k0 = k := by injection hh.2
            exact hk (this ▸ hk0)
          simp [this]
        · have hstep : countTagsAna (c :: cs) tc =
              countTagsAna cs (modA 0 (fun n => n + 1) tc k0) := by
            simp [countTagsAna, ht, hck, hk0]
          rw [hstep, ih, hcnt]
          unfold cntL
          rw [getO_modA]
          rcases eq_or_ne k k0 with he | he
          · subst he
            simp [ht, hck]
            omega
          · have h2 : ¬ (c.tag = "tag" ∧ c.k = some k) := by
              intro hh
              rw [hck] at hh
              have : k0 = k := by injection hh.2
              exact he this.symm
            simp [he, h2]
    · have hstep : countTagsAna (c :: cs) tc = countTagsAna cs tc := by
        simp [countTagsAna, ht]
      rw [hstep, ih, hcnt]
      simp [ht]

theorem anaElem_of_contrib (st : AnaState) (e : Elem) (hn : isNWR e)
    (h : (truthyS e.timestamp && truthyS e.user) = true) :
    (anaElem st e).timestamps = st.timestamps ++ [fromIso (e.timestamp.getD "")] ∧
    (anaElem st e).contributors =
      modA 0 (fun n => n + 1) st.contributors (e.user.getD "") ∧
    (anaElem st e).contrib_timestamps =
      modA [] (fun l => l ++ [fromIso (e.timestamp.getD "")]) st.contrib_timestamps
        (e.user.getD "") ∧
    (anaElem st e).tags_counter = countTagsAna e.children st.tags_counter := by
  unfold anaElem
  rw [if_pos hn, if_pos h]
  exact ⟨rfl, rfl, rfl, rfl⟩

theorem anaElem_of_no_contrib (st : AnaState) (e : Elem) (hn : isNWR e)
    (h : (truthyS e.timestamp && truthyS e.user) = false) :
    (anaElem st e).timestamps = st.timestamps ∧
    (anaElem st e).contributors = st.contributors ∧
    (anaElem st e).contrib_timestamps = st.contrib_timestamps ∧
    (anaElem st e).tags_counter = countTagsAna e.children st.tags_counter := by
  unfold anaElem
  rw [if_pos hn, if_neg (by rw [h]; exact Bool.false_ne_true)]
  exact ⟨rfl, rfl, rfl, rfl⟩

theorem anaElem_of_non_nwr (st : AnaState) (e : Elem) (hn : ¬ isNWR e) :
    anaElem st e = st := by
  unfold anaElem
  rw [if_neg hn]

theorem ana_foldl_ts_nil :
    ∀ (doc : List Elem) (st : AnaState),
      (∀ e ∈ doc, isNWR e → (truthyS e.timestamp && truthyS e.user) = false) →
      (doc.foldl anaElem st).timestamps = st.timestamps := by
  intro doc
  induction doc with
  | nil => intro st h; rfl
  | cons e rest ih =>
    intro st h
    have hstep : (e :: rest).foldl anaElem st = rest.foldl anaElem (anaElem st e) := rfl
    rw [hstep, ih _ (fun e' he' => h e' (List.mem_cons_of_mem _ he'))]
    by_cases hn : isNWR e
    · exact (anaElem_of_no_contrib st e hn (h e (List.mem_cons_self _ _) hn)).1
    · rw [anaElem_of_non_nwr st e hn]

theorem collectAux_skip_invalid (c : Child) (hc : c.k = none ∨ c.v = none) :
    ∀ (cs1 cs2 : List Child) (acc : List (String × String)),
      collectAux (cs1 ++ c :: cs2) acc = collectAux (cs1 ++ cs2) acc := by
  intro cs1
  induction cs1 with
  | nil =>
    intro cs2 acc
    show collectAux (c :: cs2) acc = collectAux cs2 acc
    by_cases ht : c.tag = "tag"
    · rcases hc with hk | hv
      · simp [collectAux, ht, hk]
      · cases hk : c.k with
        | none => simp [collectAux, ht, hk]
        | some k0 => simp [collectAux, ht, hk, hv]
    · simp [collectAux, ht]
  | cons c' cs1 ih =>
    intro cs2 acc
    show collectAux (c' :: (cs1 ++ c :: cs2)) acc = collectAux (c' :: (cs1 ++ cs2)) acc
    by_cases ht : c'.tag = "tag"
    · cases hk : c'.k with
      | none => simp [collectAux, ht, hk, ih]
      | some k0 =>
        cases hv : c'.v with
        | none => simp [collectAux, ht, hk, hv, ih]
        | some v0 => simp [collectAux, ht, hk, hv, ih]
    · simp [collectAux, ht, ih]

theorem collectAux_all_invalid :
    ∀ cs : List Child, (∀ c ∈ cs, c.k = none ∨ c.v = none) →
      ∀ acc : List (String × String), collectAux cs acc = acc := by
  intro cs
  induction cs with
  | nil => intro _ acc; rfl
  | cons c cs ih =>
    intro h acc
    have hc := h c (List.mem_cons_self _ _)
    have hrest := fun c' hc' => h c' (List.mem_cons_of_mem _ hc')
    by_cases ht : c.tag = "tag"
    · rcases hc with hk | hv
      · simp [collectAux, ht, hk, ih hrest]
      · cases hk : c.k with
        | none => simp [collectAux, ht, hk, ih hrest]
        | some k0 => simp [collectAux, ht, hk, hv, ih hrest]
    · simp [collectAux, ht, ih hrest]

theorem collectTags_nil_of_all_invalid (cs : List Child)
    (h : ∀ c ∈ cs, c.k = none ∨ c.v = none) : collectTags cs = [] :=
  collectAux_all_invalid cs h []

/-- C1: for every key k in the Aggregator's finished result, the sum over
all values v of ValueFrequency[k][v] equals KeyFrequency[k] — both counters
are bumped together for every pair of every processed object. -/
theorem key_value_sum_invariant (doc : List Elem) (orc : Nat → Bool) (k : String) :
    sumC (vals (parseRun doc orc).1 k) = tcL (parseRun doc orc).1 k :=
  aggInv_parseLoop orc doc 0 emptyAgg aggInv_empty k

/-- C2: processing an element appends exactly one reference to
ObjectIndex[(k,v)] when its collected mapping carries the pair (k,v) and
none otherwise; the collected mapping lists each carried pair exactly once
(so an object with N distinct keys lands in exactly N buckets); and over a
whole run ObjectIndex is non-empty only at pairs observed on some
node/way/relation element. -/
theorem object_index_exactly_once :
    (∀ (s : AggState) (e : Elem) (p : String × String),
      (obL (processElem s e) p).length =
        (obL s p).length +
          (if getO (collectTags e.children) p.1 = some p.2 then 1 else 0)) ∧
    (∀ (cs : List Child) (p : String × String),
      (getO (collectTags cs) p.1 = some p.2 ↔ p ∈ collectTags cs) ∧
      (collectTags cs).Nodup) ∧
    (∀ (doc : List Elem) (orc : Nat → Bool) (p : String × String),
      obL (parseRun doc orc).1 p ≠ [] →
        ∃ e, e ∈ doc ∧ isNWR e ∧ getO (collectTags e.children) p.1 = some p.2) := by
  refine ⟨?_, ?_, ?_⟩
  · intro s e p
    rw [obL_processElem]
    by_cases hc : getO (collectTags e.children) p.1 = some p.2
    · rw [if_pos hc, if_pos hc]
      simp
    · rw [if_neg hc, if_neg hc]
      simp
  · intro cs p
    obtain ⟨k, v⟩ := p
    refine ⟨⟨?_, ?_⟩, ?_⟩
    · intro h
      exact mem_of_getO_eq_some _ _ _ h
    · intro h
      exact getO_eq_some_of_mem _ _ _ (nodK_collectTags cs) h
    · exact List.Nodup.of_map Prod.fst (nodK_collectTags cs)
  · intro doc orc p h
    rcases parseLoop_obL_src orc doc 0 emptyAgg p h with hne | hex
    · exfalso
      apply hne
      simp [emptyAgg, obL, getO]
    · exact hex

theorem object_index_exactly_once_witness :
    ∃ e, e ∈ [cafeNode] ∧ isNWR e ∧
      getO (collectTags e.children) "amenity" = some "cafe" :=
  object_index_exactly_once.2.2 [cafeNode] (fun _ => false) ("amenity", "cafe") (by decide)

/-- C3 counterexample: an object whose name tag carries the literal value
"unnamed key-value" records the sentinel as its displayName although its
mapping does contain a name key, refuting "the displayName is the sentinel
exactly when the mapping contains no name key". -/
theorem displayName_sentinel_iff_refuted :
    obL (processElem emptyAgg sentinelNode) ("name", "unnamed key-value") =
      [("node", "1", "unnamed key-value")] ∧
    getO (collectTags sentinelNode.children) "name" = some "unnamed key-value" := by
  constructor
  · decide
  · decide

/-- C3 amended: every ObjectIndex entry that processing an element adds
records as displayName the value of the object's name tag when the name
key is present (including the empty string), and the sentinel
"unnamed key-value" when it is absent. -/
theorem displayName_from_name_tag (s : AggState) (e : Elem) (p : String × String)
    (o : String × String × String) (ho : o ∈ obL (processElem s e) p) :
    o ∈ obL s p ∨
      o.2.2 = (getO (collectTags e.children) "name").getD "unnamed key-value" := by
  rw [obL_processElem] at ho
  rcases List.mem_append.1 ho with h | h
  · left
    exact h
  · right
    by_cases hc : getO (collectTags e.children) p.1 = some p.2
    · rw [if_pos hc] at h
      simp only [List.mem_singleton] at h
      rw [h]
      rfl
    · rw [if_neg hc] at h
      simp at h

theorem displayName_from_name_tag_witness :
    ("node", "1", "Cafe") ∈ obL emptyAgg ("amenity", "cafe") ∨
      ("node", "1", "Cafe").2.2 =
        (getO (collectTags cafeNode.children) "name").getD "unnamed key-value" :=
  displayName_from_name_tag emptyAgg cafeNode ("amenity", "cafe") ("node", "1", "Cafe")
    (by decide)

/-- C4: for every document and every behaviour of the wall-clock throttle,
the sequence of counts delivered to the progress observer is
non-decreasing, and the run ends with one final report whose count is the
total number of node/way/relation elements processed, tagged or not. -/
theorem progress_monotone_final (doc : List Elem) (orc : Nat → Bool) :
    (parseRun doc orc).2.Pairwise (· ≤ ·) ∧
    (parseRun doc orc).2.getLast? = some (cntNWR doc) := by
  obtain ⟨hb, hp⟩ := parseLoop_reports orc doc 0 emptyAgg
  have hdef : (parseRun doc orc).2 =
      (parseLoop orc doc 0 emptyAgg).2.2 ++ [(parseLoop orc doc 0 emptyAgg).2.1] := rfl
  constructor
  · rw [hdef, List.pairwise_append]
    refine ⟨hp, by simp, ?_⟩
    intro a ha b hbm
    have hble := (hb a ha).2
    simp only [List.mem_singleton] at hbm
    omega
  · rw [hdef, List.getLast?_concat, parseLoop_count]
    simp

/-- C5: when a key repeats among one object's tag children, the collected
mapping keeps exactly the last value written for it, so KeyFrequency[k]
grows by exactly one for the object, and only that final value is counted
in ValueFrequency[k] and receives the object's ObjectIndex reference. -/
theorem duplicate_key_last_write_wins (s : AggState) (e : Elem) (k : String) :
    getO (collectTags e.children) k = lastVal e.children k ∧
    tcL (processElem s e) k =
      tcL s k + (if (lastVal e.children k).isSome then 1 else 0) ∧
    (∀ v, vmL (processElem s e) k v =
      vmL s k v + (if lastVal e.children k = some v then 1 else 0)) ∧
    (∀ v, (obL (processElem s e) (k, v)).length =
      (obL s (k, v)).length + (if lastVal e.children k = some v then 1 else 0)) := by
  refine ⟨getO_collectTags _ _, ?_, ?_, ?_⟩
  · rw [tcL_processElem, getO_collectTags]
  · intro v
    rw [vmL_processElem, getO_collectTags]
  · intro v
    rw [obL_processElem, getO_collectTags]
    by_cases hc : lastVal e.children k = some v
    · rw [if_pos hc, if_pos hc]
      simp
    · rw [if_neg hc, if_neg hc]
      simp

/-- C6: when no node/way/relation element carries both a truthy timestamp
and a truthy user attribute, the global timestamp list stays empty and the
Analyzer fails with the ValueError that min raises on an empty sequence,
rather than returning any result. -/
theorem analyzer_fails_on_empty_timestamps (doc : List Elem)
    (h : ∀ e ∈ doc, isNWR e → (truthyS e.timestamp && truthyS e.user) = false) :
    analyze doc = Except.error "min arg is an empty sequence" := by
  show (if (List.foldl anaElem initAna doc).timestamps = [] then
      (Except.error "min arg is an empty sequence" : Except String AnaState)
    else Except.ok (List.foldl anaElem initAna doc)) =
      Except.error "min arg is an empty sequence"
  rw [ana_foldl_ts_nil doc initAna h]
  simp [initAna]

theorem analyzer_fails_on_empty_timestamps_witness :
    analyze [noUserNode] = Except.error "min arg is an empty sequence" :=
  analyzer_fails_on_empty_timestamps [noUserNode] (by decide)

/-- C7 counterexample: an element with a present-but-empty timestamp
attribute and a present user attribute contributes nothing to the
contributor edit counts, its user's timestamp sequence or the global
timestamp list, although both attributes are present (its tag still counts
toward tag frequency), refuting accumulation "iff both attributes are
present". -/
theorem contrib_iff_present_refuted :
    emptyTsNode.timestamp ≠ none ∧ emptyTsNode.user ≠ none ∧
    (anaElem initAna emptyTsNode).timestamps = [] ∧
    cntL (anaElem initAna emptyTsNode).contributors "alice" = 0 ∧
    tsL (anaElem initAna emptyTsNode).contrib_timestamps "alice" = [] ∧
    cntL (anaElem initAna emptyTsNode).tags_counter "amenity" = 1 := by
  refine ⟨by decide, by decide, by decide, by decide, by decide, by decide⟩

/-- C7 amended: an element is accumulated into the contributor counts, its
user's timestamp sequence and the global timestamp list exactly when both
its timestamp and user attributes are present AND non-empty (Python
truthiness); otherwise those three aggregates are unchanged; its tag
children are counted into the per-key tag counter either way. -/
theorem contrib_iff_truthy (st : AnaState) (e : Elem) (hn : isNWR e) :
    ((truthyS e.timestamp && truthyS e.user) = true →
      (anaElem st e).timestamps = st.timestamps ++ [fromIso (e.timestamp.getD "")] ∧
      cntL (anaElem st e).contributors (e.user.getD "") =
        cntL st.contributors (e.user.getD "") + 1 ∧
      tsL (anaElem st e).contrib_timestamps (e.user.getD "") =
        tsL st.contrib_timestamps (e.user.getD "") ++ [fromIso (e.timestamp.getD "")]) ∧
    ((truthyS e.timestamp && truthyS e.user) = false →
      (anaElem st e).timestamps = st.timestamps ∧
      (anaElem st e).contributors = st.contributors ∧
      (anaElem st e).contrib_timestamps = st.contrib_timestamps) ∧
    (anaElem st e).tags_counter = countTagsAna e.children st.tags_counter := by
  refine ⟨?_, ?_, ?_⟩
  · intro h
    obtain ⟨h1, h2, h3, _⟩ := anaElem_of_contrib st e hn h
    refine ⟨h1, ?_, ?_⟩
    · rw [h2]
      unfold cntL
      rw [getO_modA]
      simp
    · rw [h3]
      unfold tsL
      rw [getO_modA]
      simp
  · intro h
    obtain ⟨h1, h2, h3, _⟩ := anaElem_of_no_contrib st e hn h
    exact ⟨h1, h2, h3⟩
  · by_cases h : (truthyS e.timestamp && truthyS e.user) = true
    · exact (anaElem_of_contrib st e hn h).2.2.2
    · exact (anaElem_of_no_contrib st e hn (by rwa [Bool.not_eq_true] at h)).2.2.2

theorem contrib_iff_truthy_witness :
    (anaElem initAna aliceNode).timestamps =
      initAna.timestamps ++ [fromIso (aliceNode.timestamp.getD "")] :=
  ((contrib_iff_truthy initAna aliceNode (by decide)).1 (by decide)).1

/-- C8 counterexample: for an object tuple with empty displayName the
formatting hook substitutes the sentinel "unnamed key-value" into the
displayName slot instead of the (empty) displayName the claimed template
prescribes. -/
theorem format_template_refuted :
    formatObject ("node", "1", "") = "* \x7b\x7bNode|1|unnamed key-value\x7d\x7d" ∧
    formatObject ("node", "1", "") ≠
      "* \x7b\x7b" ++ pyCapitalize "node" ++ "|" ++ "1" ++ "|" ++ "" ++ "\x7d\x7d" := by
  constructor
  · decide
  · decide

/-- C8 amended: the hook returns the single-line template
"* {{capitalize(kind)|id|d}}" where capitalize upper-cases the first
letter and lower-cases the rest (Python str.capitalize, node to Node) and
d is displayName when non-empty, else the sentinel "unnamed key-value". -/
theorem format_object_template (t oid nm : String) :
    formatObject (t, oid, nm) =
      "* \x7b\x7b" ++ pyCapitalize t ++ "|" ++ oid ++ "|" ++
        (if nm = "" then "unnamed key-value" else nm) ++ "\x7d\x7d" := rfl

/-- C9: a tag child lacking its k attribute or its v attribute is ignored:
deleting it from an element's children leaves the collected mapping — and
hence every structure computed from it — unchanged, and an element all of
whose tag children lack k or v updates none of KeyFrequency, ValueFrequency
or ObjectIndex. -/
theorem invalid_tag_children_ignored :
    (∀ (cs1 cs2 : List Child) (c : Child), (c.k = none ∨ c.v = none) →
      collectTags (cs1 ++ c :: cs2) = collectTags (cs1 ++ cs2)) ∧
    (∀ (s : AggState) (e : Elem),
      (∀ c ∈ e.children, c.k = none ∨ c.v = none) → processElem s e = s) := by
  constructor
  · intro cs1 cs2 c hc
    exact collectAux_skip_invalid c hc cs1 cs2 []
  · intro s e h
    exact processElem_eq_of_nil s e (collectTags_nil_of_all_invalid e.children h)

theorem invalid_tag_children_ignored_witness :
    collectTags ([] ++ Child.mk "tag" none (some "x") :: []) = collectTags ([] ++ []) ∧
    processElem emptyAgg invalidTagsNode = emptyAgg :=
  ⟨invalid_tag_children_ignored.1 [] [] (Child.mk "tag" none (some "x")) (Or.inl rfl),
   invalid_tag_children_ignored.2 emptyAgg invalidTagsNode (by decide)⟩

/-- C10: the Analyzer bumps its per-key tag counter once per tag child
occurrence whose k attribute is present and non-empty, regardless of the v
attribute and counting repeated keys separately, while the Aggregator's
per-object KeyFrequency grows by at most one per object. -/
theorem analyzer_counts_per_occurrence :
    (∀ (st : AnaState) (e : Elem) (k : String), k ≠ "" → isNWR e →
      cntL (anaElem st e).tags_counter k =
        cntL st.tags_counter k + countKeyChildren e.children k) ∧
    (∀ (s : AggState) (e : Elem) (k : String),
      tcL (processElem s e) k ≤ tcL s k + 1) := by
  constructor
  · intro st e k hk hn
    have htc : (anaElem st e).tags_counter = countTagsAna e.children st.tags_counter := by
      by_cases h : (truthyS e.timestamp && truthyS e.user) = true
      · exact (anaElem_of_contrib st e hn h).2.2.2
      · exact (anaElem_of_no_contrib st e hn (by rwa [Bool.not_eq_true] at h)).2.2.2
    rw [htc]
    exact cntL_countTagsAna k hk e.children st.tags_counter
  · intro s e k
    rw [tcL_processElem]
    by_cases h : (getO (collectTags e.children) k).isSome
    · rw [if_pos h]
    · rw [if_neg h]
      omega

theorem analyzer_counts_per_occurrence_witness :
    cntL (anaElem initAna dupAnaNode).tags_counter "amenity" =
      cntL initAna.tags_counter "amenity" + countKeyChildren dupAnaNode.children "amenity" :=
  analyzer_counts_per_occurrence.1 initAna dupAnaNode "amenity" (by decide) (by decide)
